import Mathlib

/-!
Shallow embedding of the wgmesh control-plane core (src/host.rs, src/lib.rs,
src/server.rs): the RFC 4193 address generator, the host data model, the
registry (`Config`) and its `add_host` operation, the `/connect` handler's
state transition, and the bounded event cache.

Machine integers (u16, u64) are modelled as `Nat`; every `as u16` cast in the
source appears as `% 2 ^ 16`.  Nondeterministic inputs of the source (wall
clock, random interface id, the v1 uuid of an event) are explicit parameters.
The `HashMap<IpNet, Host>` of the source is modelled as an association list
with the standard map semantics (`alGet`, `alInsert`, `alUpdate`); a
`HashMap` has no observable order, so list position carries no meaning.
-/

/-- Model of the `ipnet::IpNet` key type (src/lib.rs uses it as the
`remote_hosts` map key and src/host.rs as the `wireguard_address` field).
Only construction and decidable equality are needed by the embedded code;
the address and prefix length of each variant are carried as `Nat`. -/
inductive IpNet where
  | V4 (addr : Nat) (prefixLen : Nat)
  | V6 (addr : Nat) (prefixLen : Nat)
deriving DecidableEq, Repr

/-- Model of `host::Interface` (src/host.rs:77-82): name, MAC, operational
state and the list of bound address prefixes. -/
structure Interface where
  name : String
  mac : String
  state : String
  addresses : List IpNet
deriving DecidableEq, Repr

/-- Model of `host::Host` (src/host.rs:67-74).  `DateTime<Utc>` is modelled
as a `Nat` timestamp and `last_seen` as `Option Nat`. -/
structure Host where
  name : String
  last_seen : Option Nat
  wireguard_address : IpNet
  public_key : String
  private_key : String
  interfaces : List Interface
deriving DecidableEq, Repr

/-- Model of `std::net::Ipv6Addr` as its eight 16-bit segments, in the order
they are passed to `Ipv6Addr::new` (src/host.rs:46-55). -/
structure Ipv6Addr where
  s0 : Nat
  s1 : Nat
  s2 : Nat
  s3 : Nat
  s4 : Nat
  s5 : Nat
  s6 : Nat
  s7 : Nat
deriving DecidableEq, Repr

/-- The 128-bit value of an `Ipv6Addr`, segment 0 most significant. -/
def Ipv6Addr.toNat (a : Ipv6Addr) : Nat :=
  a.s0 * 2 ^ 112 + a.s1 * 2 ^ 96 + a.s2 * 2 ^ 80 + a.s3 * 2 ^ 64 +
    a.s4 * 2 ^ 48 + a.s5 * 2 ^ 32 + a.s6 * 2 ^ 16 + a.s7

/-- Model of `host::generate_ipv6` (src/host.rs:34-56).  `randomIface` is the
value `rand::random()` would produce (a u64, hence `% 2 ^ 64`), used only
when `iface_id` is `none`.  The source compares `global_id` against
`40_u64.pow(2)`, written here as `40 ^ 2`; `base_pfx` embeds the local
`base_prefix` variable (0xfc00).  The u16 additions and casts are wrapped
with `% 2 ^ 16` mirroring the `as u16` casts; the `base_pfx` addition cannot
overflow on any input the range check accepts. -/
def generate_ipv6 (global_id subnet_id iface_id : Option Nat)
    (randomIface : Nat) : Except String Ipv6Addr :=
  let base_pfx : Nat := 0xfc00
  let gid : Nat := global_id.getD 0
  if gid ≥ 40 ^ 2 then
    Except.error "global_id may only be 40 bits wide"
  else
    let sid : Nat := subnet_id.getD 0
    let iid : Nat := iface_id.getD (randomIface % 2 ^ 64)
    Except.ok
      { s0 := (base_pfx + (gid >>> 32) % 2 ^ 16) % 2 ^ 16
        s1 := (gid >>> 16) % 2 ^ 16
        s2 := gid % 2 ^ 16
        s3 := sid
        s4 := (iid >>> 48) % 2 ^ 16
        s5 := (iid >>> 32) % 2 ^ 16
        s6 := (iid >>> 16) % 2 ^ 16
        s7 := iid % 2 ^ 16 }

/-- Lookup in the association-list model of `HashMap<IpNet, Host>`:
`m.get(&k)` / `m.get_mut(&k)` viewed as a query. -/
def alGet (m : List (IpNet × Host)) (k : IpNet) : Option Host :=
  match m with
  | [] => none
  | p :: rest => if p.1 = k then some p.2 else alGet rest k

/-- `HashMap::insert(k, v)`: replace the value at `k` if the key is present,
otherwise add the binding. -/
def alInsert (m : List (IpNet × Host)) (k : IpNet) (v : Host) :
    List (IpNet × Host) :=
  match m with
  | [] => [(k, v)]
  | p :: rest => if p.1 = k then (k, v) :: rest else p :: alInsert rest k v

/-- The write performed through `HashMap::get_mut(&k)` followed by
`*entry = v` (src/server.rs:66-69): replace the value at `k` when the key is
present, change nothing otherwise. -/
def alUpdate (m : List (IpNet × Host)) (k : IpNet) (v : Host) :
    List (IpNet × Host) :=
  match m with
  | [] => []
  | p :: rest => if p.1 = k then (k, v) :: rest else p :: alUpdate rest k v

/-- Model of `Config` (src/lib.rs:156-162).  `Uuid` is modelled as `Nat`. -/
structure Config where
  version : String
  network_id : Nat
  subnet : IpNet
  host : Host
  remote_hosts : List (IpNet × Host)
deriving DecidableEq, Repr

/-- Model of `Config::add_host` (src/lib.rs:199-210): error when some remote
host already has the submitted name, otherwise insert the host keyed by its
`wireguard_address`.  The source's loop over `remote_hosts.iter()` returning
on the first name match is the `find?` below. -/
def Config.add_host (c : Config) (host : Host) : Except String Config :=
  match c.remote_hosts.find? (fun p => p.2.name = host.name) with
  | some _ =>
      Except.error ("host with name \"" ++ host.name ++ "\" already exists")
  | none =>
      Except.ok
        { c with
          remote_hosts := alInsert c.remote_hosts host.wireguard_address host }

/-- Model of `EventData` (src/lib.rs:31-34). -/
inductive EventData where
  | Connect (host : Host)
  | Disconnect (host : Host)
deriving DecidableEq, Repr

/-- Model of `Event` (src/lib.rs:24-28); `id` models the v1 `Uuid` and
`created_at` the `DateTime<Utc>`. -/
structure Event where
  id : Nat
  created_at : Nat
  data : EventData
deriving DecidableEq, Repr

/-- Model of `lru::LruCache`: capacity plus the entry list, most recently
used first. -/
structure LruCache (α β : Type) where
  cap : Nat
  entries : List (α × β)
deriving DecidableEq, Repr

/-- Modelled from the lru crate: `LruCache::new(cap)` is empty with the given
capacity. -/
def LruCache.new (α β : Type) (cap : Nat) : LruCache α β :=
  { cap := cap, entries := [] }

/-- Modelled from the lru crate: `put(k, v)` removes any entry with key `k`,
pushes `(k, v)` to the front, and evicts the least recently used entry (the
back) when the capacity is exceeded.  Eviction is silent: `put` is total and
returns only the new cache (the crate's returned old value is unused by this
repository). -/
def LruCache.put [DecidableEq α] (c : LruCache α β) (k : α) (v : β) :
    LruCache α β :=
  let promoted := (k, v) :: c.entries.filter (fun p => !decide (p.1 = k))
  { cap := c.cap
    entries := if c.cap < promoted.length then promoted.dropLast else promoted }

/-- Whether the cache holds an entry with key `k`. -/
def LruCache.containsKeyB [DecidableEq α] (c : LruCache α β) (k : α) : Bool :=
  c.entries.any (fun p => decide (p.1 = k))

/-- The keys of the cache, most recently used first. -/
def LruCache.keys (c : LruCache α β) : List α :=
  c.entries.map Prod.fst

/-- Model of `AppState` (src/server.rs:20-23): the registry plus the event
cache keyed by event id. -/
structure AppState where
  network_config : Config
  events : LruCache Nat Event

/-- Model of the state constructed by `server` (src/server.rs:104-108):
the supplied registry and `LruCache::new(1000)`. -/
def mkAppState (network_config : Config) : AppState :=
  { network_config := network_config, events := LruCache.new Nat Event 1000 }

/-- Model of the state transition of the `/connect` handler
(src/server.rs:51-74).  `eventId` and `now` stand for the `uuidv1` value and
`Utc::now()` of the run.  The handler builds a `Connect` event from the
submitted host, `put`s it into the event cache, and then — only when an
entry at `host.wireguard_address` already exists — overwrites that entry
with the submitted host whose `last_seen` is set to `now`.  The returned ack
string (a `format!` over the name and address) carries no state and is not
modelled. -/
def connect (st : AppState) (host : Host) (eventId now : Nat) : AppState :=
  let event : Event :=
    { id := eventId, created_at := now, data := EventData.Connect host }
  let events := st.events.put event.id event
  let remote :=
    match alGet st.network_config.remote_hosts host.wireguard_address with
    | some _ =>
        alUpdate st.network_config.remote_hosts host.wireguard_address
          { host with last_seen := some now }
    | none => st.network_config.remote_hosts
  { network_config := { st.network_config with remote_hosts := remote }
    events := events }

/-- Fold of `put` over a list of events, one `put` per `/connect` call
(src/server.rs:58-59). -/
def putAll (c : LruCache Nat Event) (es : List Event) : LruCache Nat Event :=
  es.foldl (fun c e => c.put e.id e) c

/-- The names of the remote registry entries. -/
def remoteNames (c : Config) : List String :=
  c.remote_hosts.map (fun p => p.2.name)

/-- The mesh-address keys of the remote registry entries. -/
def remoteKeys (c : Config) : List IpNet :=
  c.remote_hosts.map Prod.fst

/-- All registry names, the local host's included. -/
def namesOf (c : Config) : List String :=
  c.host.name :: remoteNames c

/-- All registry mesh addresses, the local host's included. -/
def addrsOf (c : Config) : List IpNet :=
  c.host.wireguard_address :: remoteKeys c

/-- Concrete mesh address used by the test fixtures. -/
def addrA : IpNet := IpNet.V4 1 32

/-- A second concrete mesh address. -/
def addrB : IpNet := IpNet.V4 2 32

/-- The local host's concrete mesh address. -/
def addrL : IpNet := IpNet.V4 0 32

/-- Fixture: remote host "x" at `addrA`. -/
def hostX : Host :=
  { name := "x", last_seen := none, wireguard_address := addrA,
    public_key := "pkx", private_key := "", interfaces := [] }

/-- Fixture: host "y" claiming the same address `addrA` as `hostX`. -/
def hostY : Host :=
  { name := "y", last_seen := none, wireguard_address := addrA,
    public_key := "pky", private_key := "", interfaces := [] }

/-- Fixture: host "z" at the fresh address `addrB`. -/
def hostZ : Host :=
  { name := "z", last_seen := none, wireguard_address := addrB,
    public_key := "pkz", private_key := "", interfaces := [] }

/-- Fixture: the local host, named "me", at `addrL`. -/
def hostMe : Host :=
  { name := "me", last_seen := none, wireguard_address := addrL,
    public_key := "", private_key := "", interfaces := [] }

/-- Fixture: a remote host reusing the local host's name "me". -/
def hostMe2 : Host :=
  { name := "me", last_seen := none, wireguard_address := addrB,
    public_key := "", private_key := "", interfaces := [] }

/-- Fixture: a registry with local host `hostMe` and no remote hosts. -/
def cfg0 : Config :=
  { version := "v1", network_id := 7, subnet := IpNet.V4 0 24,
    host := hostMe, remote_hosts := [] }

/-- Fixture: `cfg0` with `hostX` registered at `addrA`. -/
def cfgX : Config :=
  { cfg0 with remote_hosts := [(addrA, hostX)] }

/-- The registry `Config.add_host cfgX hostY` actually produces: `hostX`'s
entry replaced by `hostY`. -/
def cfgXresY : Config :=
  { cfg0 with remote_hosts := [(addrA, hostY)] }

/-- The registry `Config.add_host cfgX hostZ` produces. -/
def cfgXplusZ : Config :=
  { cfg0 with remote_hosts := [(addrA, hostX), (addrB, hostZ)] }

/-- The registry `Config.add_host cfg0 hostMe2` produces. -/
def cfgMres : Config :=
  { cfg0 with remote_hosts := [(addrB, hostMe2)] }

/-- Fixture event with id 0. -/
def ev0 : Event := { id := 0, created_at := 0, data := EventData.Connect hostX }

/-- Fixture event with id 1. -/
def ev1 : Event := { id := 1, created_at := 1, data := EventData.Connect hostY }

/-- Fixture event with id 2. -/
def ev2 : Event :=
  { id := 2, created_at := 2, data := EventData.Disconnect hostZ }

/-- Updating an existing key leaves the key list unchanged. -/
theorem alUpdate_map_fst (m : List (IpNet × Host)) (k : IpNet) (v : Host) :
    (alUpdate m k v).map Prod.fst = m.map Prod.fst := by
  induction m with
  | nil => rfl
  | cons p rest ih =>
    by_cases hp : p.1 = k
    · simp [alUpdate, hp]
    · simp [alUpdate, hp, ih]

/-- After updating a present key, lookup at that key yields the new value. -/
theorem alGet_alUpdate_self (m : List (IpNet × Host)) (k : IpNet) (v e : Host)
    (h : alGet m k = some e) : alGet (alUpdate m k v) k = some v := by
  induction m with
  | nil => simp [alGet] at h
  | cons p rest ih =>
    by_cases hp : p.1 = k
    · simp [alUpdate, hp, alGet]
    · simp only [alGet, if_neg hp] at h
      simp [alUpdate, hp, alGet, ih h]

/-- Lookup misses exactly when no entry carries the key. -/
theorem alGet_eq_none_iff (m : List (IpNet × Host)) (k : IpNet) :
    alGet m k = none ↔ ∀ p ∈ m, p.1 ≠ k := by
  induction m with
  | nil => simp [alGet]
  | cons p rest ih =>
    by_cases hp : p.1 = k
    · simp [alGet, hp]
    · simp [alGet, hp, ih]

/-- Inserting a fresh key appends the binding. -/
theorem alInsert_of_get_none (m : List (IpNet × Host)) (k : IpNet) (v : Host)
    (h : alGet m k = none) : alInsert m k v = m ++ [(k, v)] := by
  induction m with
  | nil => rfl
  | cons p rest ih =>
    have hp : p.1 ≠ k := ((alGet_eq_none_iff _ _).mp h) p (by simp)
    simp only [alGet, if_neg hp] at h
    simp [alInsert, hp, ih h]

/-- Inserting at a present key leaves the key list unchanged. -/
theorem alInsert_map_fst_of_get_some (m : List (IpNet × Host)) (k : IpNet)
    (v e : Host) (h : alGet m k = some e) :
    (alInsert m k v).map Prod.fst = m.map Prod.fst := by
  induction m with
  | nil => simp [alGet] at h
  | cons p rest ih =>
    by_cases hp : p.1 = k
    · simp [alInsert, hp]
    · simp only [alGet, if_neg hp] at h
      simp [alInsert, hp, ih h]

/-- Every name present after an insert was present before or is the inserted
host's name. -/
theorem mem_names_alInsert (m : List (IpNet × Host)) (k : IpNet) (v : Host)
    (x : String) (hx : x ∈ (alInsert m k v).map fun p => p.2.name) :
    x = v.name ∨ x ∈ m.map fun p => p.2.name := by
  induction m with
  | nil => simp [alInsert] at hx; simp [hx]
  | cons p rest ih =>
    by_cases hp : p.1 = k
    · simp [alInsert, hp] at hx
      rcases hx with hx | hx
      · exact Or.inl hx
      · exact Or.inr (by simp [hx])
    · simp only [alInsert, if_neg hp, List.map_cons, List.mem_cons] at hx
      rcases hx with hx | hx
      · exact Or.inr (by simp [hx])
      · rcases ih hx with h | h
        · exact Or.inl h
        · exact Or.inr (by simp [h])

/-- Inserting a host whose name occurs nowhere in the map keeps the name list
duplicate-free. -/
theorem names_alInsert_nodup (m : List (IpNet × Host)) (k : IpNet) (v : Host)
    (hfresh : ∀ p ∈ m, p.2.name ≠ v.name)
    (hnd : (m.map fun p => p.2.name).Nodup) :
    ((alInsert m k v).map fun p => p.2.name).Nodup := by
  induction m with
  | nil => simp [alInsert]
  | cons p rest ih =>
    simp only [List.map_cons, List.nodup_cons] at hnd
    by_cases hp : p.1 = k
    · have hvn : v.name ∉ rest.map fun p => p.2.name := by
        intro hmem
        rcases List.mem_map.mp hmem with ⟨q, hq, hqe⟩
        exact hfresh q (by simp [hq]) hqe
      simp [alInsert, hp, List.nodup_cons, hvn, hnd.2]
    · have htail := ih (fun q hq => hfresh q (by simp [hq])) hnd.2
      have hpn : p.2.name ∉ (alInsert rest k v).map fun p => p.2.name := by
        intro hmem
        rcases mem_names_alInsert rest k v _ hmem with h | h
        · exact hfresh p (by simp) h
        · exact hnd.1 h
      simp [alInsert, hp, List.nodup_cons, hpn, htail]

/-- Registry addresses are untouched by a `/connect` call: the handler only
replaces the value stored under an already-present key. -/
theorem addrsOf_connect (st : AppState) (g : Host) (eid now : Nat) :
    addrsOf (connect st g eid now).network_config =
      addrsOf st.network_config := by
  unfold connect addrsOf remoteKeys
  cases hget : alGet st.network_config.remote_hosts g.wireguard_address with
  | none => simp [hget]
  | some e => simp [hget, alUpdate_map_fst]

/-- C1: the claim asserts the connect operation upserts — in particular that
a host whose address is absent is inserted, so the registry afterwards holds
an entry at the submitted address.  Counterexample: connecting `hostX` to a
server whose registry has no remote hosts leaves the registry empty; no
entry exists at the submitted address after the successful call. -/
theorem connect_claim_counterexample :
    (mkAppState cfg0).network_config.remote_hosts = [] ∧
    (connect (mkAppState cfg0) hostX 1 5).network_config.remote_hosts = [] ∧
    alGet (connect (mkAppState cfg0) hostX 1 5).network_config.remote_hosts
      hostX.wireguard_address = none := by
  exact ⟨rfl, rfl, rfl⟩

/-- C1 (amended): the connect operation is an update, not an upsert: when an
entry at the submitted mesh address exists it is overwritten with the
submitted host whose `last_seen` is stamped to now; when no such entry
exists the registry is left unchanged. -/
theorem connect_update_semantics (st : AppState) (h : Host) (eid now : Nat) :
    (∀ e, alGet st.network_config.remote_hosts h.wireguard_address = some e →
      alGet (connect st h eid now).network_config.remote_hosts
          h.wireguard_address = some { h with last_seen := some now }) ∧
    (alGet st.network_config.remote_hosts h.wireguard_address = none →
      (connect st h eid now).network_config.remote_hosts =
        st.network_config.remote_hosts) := by
  constructor
  · intro e he
    unfold connect
    simp only [he]
    exact alGet_alUpdate_self _ _ _ _ he
  · intro hnone
    unfold connect
    simp [hnone]

/-- Witness for the amended C1 theorem: with `hostX` registered at `addrA`,
connecting `hostX` again at time 7 leaves its entry overwritten with
`last_seen = some 7`. -/
theorem connect_update_semantics_witness :
    alGet (connect (mkAppState cfgX) hostX 2 7).network_config.remote_hosts
      hostX.wireguard_address = some { hostX with last_seen := some 7 } :=
  (connect_update_semantics (mkAppState cfgX) hostX 2 7).1 hostX rfl

/-- C2: the claim (and the doc comment of `Config::add_host`) says a host
whose mesh address is already another host's key is rejected with an address
conflict.  The code only scans names: adding `hostY` (fresh name, same
address as `hostX`) succeeds and silently replaces `hostX`'s entry. -/
theorem add_host_silently_overwrites_address :
    Config.add_host cfgX hostY = Except.ok cfgXresY ∧
    hostY.name ≠ hostX.name ∧
    alGet cfgXresY.remote_hosts addrA = some hostY ∧
    alGet cfgXresY.remote_hosts addrA ≠ some hostX := by
  refine ⟨rfl, by decide, rfl, by decide⟩

/-- C3: the claim asserts every mutating registry operation preserves
name uniqueness across all entries, the local host's included.
Counterexample: starting from `cfg0` (local host named "me", unique names
and addresses), `add_host` accepts a remote host also named "me" — it never
compares against the local host — leaving two registry entries that share a
name. -/
theorem add_host_name_invariant_counterexample :
    (namesOf cfg0).Nodup ∧ (addrsOf cfg0).Nodup ∧
    Config.add_host cfg0 hostMe2 = Except.ok cfgMres ∧
    ¬ (namesOf cfgMres).Nodup := by
  exact ⟨by decide, by decide, rfl, by decide⟩

/-- C3 (amended): a successful `add_host` preserves uniqueness of names and
of mesh addresses among the remote entries (the local host's entry is never
consulted), and the connect-path update leaves the registry's address list —
local host included — unchanged, so address uniqueness is preserved there;
connect performs no name check, so name uniqueness across entries is not
maintained by it. -/
theorem add_host_preserves_remote_uniqueness (c c' : Config) (h : Host)
    (st : AppState) (g : Host) (eid now : Nat)
    (hn : (remoteNames c).Nodup) (ha : (remoteKeys c).Nodup)
    (hok : Config.add_host c h = Except.ok c') :
    (remoteNames c').Nodup ∧ (remoteKeys c').Nodup ∧
    addrsOf (connect st g eid now).network_config =
      addrsOf st.network_config := by
  unfold Config.add_host at hok
  cases hfind : c.remote_hosts.find? (fun p => decide (p.2.name = h.name)) with
  | some q => rw [hfind] at hok; exact absurd hok (by simp)
  | none =>
    rw [hfind] at hok
    injection hok with h1
    have hfresh : ∀ p ∈ c.remote_hosts, p.2.name ≠ h.name := by
      intro p hp
      have := List.find?_eq_none.mp hfind p hp
      simpa using this
    refine ⟨?_, ?_, addrsOf_connect st g eid now⟩
    · rw [← h1]
      unfold remoteNames at hn ⊢
      simpa using names_alInsert_nodup c.remote_hosts h.wireguard_address h
        hfresh hn
    · rw [← h1]
      unfold remoteKeys at ha ⊢
      cases halget : alGet c.remote_hosts h.wireguard_address with
      | some e =>
        simpa [alInsert_map_fst_of_get_some c.remote_hosts
          h.wireguard_address h e halget] using ha
      | none =>
        have hknot : h.wireguard_address ∉ c.remote_hosts.map Prod.fst := by
          intro hkmem
          rcases List.mem_map.mp hkmem with ⟨p, hp, hpe⟩
          exact (alGet_eq_none_iff _ _).mp halget p hp hpe
        simp [alInsert_of_get_none c.remote_hosts h.wireguard_address h
          halget, List.nodup_append, ha, hknot]

/-- Witness for the amended C3 theorem: adding host "z" (fresh name, fresh
address) to `cfgX` succeeds and the remote names and keys stay
duplicate-free; a connect call leaves the address list of `cfg0`'s state
unchanged. -/
theorem add_host_preserves_remote_uniqueness_witness :
    (remoteNames cfgXplusZ).Nodup ∧ (remoteKeys cfgXplusZ).Nodup ∧
    addrsOf (connect (mkAppState cfg0) hostX 1 5).network_config =
      addrsOf (mkAppState cfg0).network_config :=
  add_host_preserves_remote_uniqueness cfgX cfgXplusZ hostZ
    (mkAppState cfg0) hostX 1 5 (by decide) (by decide) rfl

/-- C4: the claim says `generate` rejects exactly the global ids that do not
fit in 40 bits.  The source compares against `40_u64.pow(2)` = 1600, so the
40-bit value 1600 — far below 2^40 — is rejected with the out-of-range
error. -/
theorem generate_rejects_40bit_global_id :
    1600 < 2 ^ 40 ∧
    generate_ipv6 (some 1600) none none 0 =
      Except.error "global_id may only be 40 bits wide" := by
  exact ⟨by norm_num, rfl⟩

/-- C5: the claim says every explicitly supplied input with
`globalId < 2 ^ 40` yields an address carrying the RFC 4193 bit layout.  At
`globalId = 2 ^ 39` (valid per the claim) the code instead fails with the
out-of-range error, because its range check uses `40 ^ 2` = 1600. -/
theorem generate_fails_inside_40bit_range :
    2 ^ 39 < 2 ^ 40 ∧
    generate_ipv6 (some (2 ^ 39)) (some 0) (some 0) 0 =
      Except.error "global_id may only be 40 bits wide" := by
  exact ⟨by norm_num, rfl⟩

/-- On every input the range check accepts (`globalId < 40 ^ 2`), the
produced address does carry the claimed layout: the top 7 bits are the
unique-local prefix (0b1111110), the 40 bits below the leading byte hold
`globalId`, the next 16 hold `subnetId` and the low 64 hold `interfaceId`;
the computation is deterministic by construction. -/
theorem generate_ipv6_layout (gid sid iid r : Nat) (hg : gid < 40 ^ 2)
    (hs : sid < 2 ^ 16) (hi : iid < 2 ^ 64) :
    ∃ a, generate_ipv6 (some gid) (some sid) (some iid) r = Except.ok a ∧
      a.toNat = 0xfc * 2 ^ 120 + gid * 2 ^ 80 + sid * 2 ^ 64 + iid ∧
      a.toNat >>> 121 = 0x7e := by
  have hg' : gid < 1600 := by norm_num at hg; exact hg
  have h32 : gid >>> 32 = 0 := by
    rw [Nat.shiftRight_eq_div_pow]
    exact Nat.div_eq_of_lt (by norm_num; omega)
  have h16 : gid >>> 16 = 0 := by
    rw [Nat.shiftRight_eq_div_pow]
    exact Nat.div_eq_of_lt (by norm_num; omega)
  have hgid16 : gid % 2 ^ 16 = gid := Nat.mod_eq_of_lt (by norm_num; omega)
  simp only [generate_ipv6, Option.getD_some]
  rw [if_neg (not_le.mpr hg)]
  refine ⟨_, rfl, ?_, ?_⟩
  · simp only [Option.getD_some, Ipv6Addr.toNat, h32, h16, hgid16,
      Nat.shiftRight_eq_div_pow]
    norm_num
    omega
  · simp only [Option.getD_some, Ipv6Addr.toNat, h32, h16, hgid16,
      Nat.shiftRight_eq_div_pow]
    norm_num
    omega

/-- Key membership in the cache, as a proposition about `keys`. -/
theorem lru_containsKeyB_iff (c : LruCache Nat Event) (k : Nat) :
    c.containsKeyB k = true ↔ k ∈ c.keys := by
  simp only [LruCache.containsKeyB, LruCache.keys]
  rw [List.any_eq_true]
  constructor
  · rintro ⟨p, hp, hdec⟩
    exact (of_decide_eq_true hdec) ▸ List.mem_map_of_mem Prod.fst hp
  · intro h
    rcases List.mem_map.mp h with ⟨p, hp, hpe⟩
    exact ⟨p, hp, decide_eq_true hpe⟩

/-- Filling a cache with fresh, pairwise-distinct events below capacity
never evicts: the new entries pile up in front of the old ones, most recent
first. -/
theorem putAll_fresh (es : List Event) : ∀ c : LruCache Nat Event,
    (es.map Event.id).Nodup →
    (∀ e ∈ es, c.containsKeyB e.id = false) →
    c.entries.length + es.length ≤ c.cap →
    (putAll c es).cap = c.cap ∧
    (putAll c es).entries =
      (es.map (fun e => (e.id, e))).reverse ++ c.entries := by
  induction es with
  | nil => intro c _ _ _; simp [putAll]
  | cons e es ih =>
    intro c hnd hfresh hlen
    simp only [List.map_cons, List.nodup_cons] at hnd
    have hfe : c.containsKeyB e.id = false := hfresh e (by simp)
    simp only [LruCache.containsKeyB, List.any_eq_false] at hfe
    have hfilter : c.entries.filter (fun p => !decide (p.1 = e.id)) =
        c.entries := by
      apply List.filter_eq_self.mpr
      intro p hp
      simpa using hfe p hp
    have hlen' : c.entries.length + (es.length + 1) ≤ c.cap := by
      simpa using hlen
    have hnolt : ¬ (c.cap < ((e.id, e) :: c.entries).length) := by
      simp only [List.length_cons]
      omega
    have hput : c.put e.id e =
        { cap := c.cap, entries := (e.id, e) :: c.entries } := by
      simp only [LruCache.put, hfilter, if_neg hnolt]
    have hstep : putAll c (e :: es) = putAll (c.put e.id e) es := rfl
    rw [hstep, hput]
    have hfresh' : ∀ e' ∈ es,
        LruCache.containsKeyB
          { cap := c.cap, entries := (e.id, e) :: c.entries } e'.id = false := by
      intro e' he'
      have h1 : ¬ (e.id = e'.id) := by
        intro hcontra
        exact hnd.1 (hcontra ▸ List.mem_map_of_mem Event.id he')
      have h2 := hfresh e' (by simp [he'])
      simp only [LruCache.containsKeyB, List.any_eq_false] at h2 ⊢
      intro p hp
      rcases List.mem_cons.mp hp with hph | hpt
      · simp [hph, h1]
      · exact h2 p hpt
    have hlen'' :
        ({ cap := c.cap, entries := (e.id, e) :: c.entries } :
          LruCache Nat Event).entries.length + es.length ≤ c.cap := by
      simp only [List.length_cons]
      omega
    obtain ⟨hcap, hentries⟩ := ih _ hnd.2 hfresh' hlen''
    refine ⟨hcap, ?_⟩
    rw [hentries]
    simp [List.reverse_cons, List.append_assoc]

/-- C6: the server's event log is created with capacity 1000 and evicts in
insertion order: putting K+1 events with pairwise distinct ids into an empty
log of capacity K (one `put` per connect, as the handler does) leaves
exactly K events, every event but the first is still present, and the
first-inserted event is the one absent; `put` is total, so eviction
raises no error. -/
theorem event_log_bounded_eviction (cfg : Config) (e0 : Event)
    (rest : List Event) (K : Nat) (hK : 0 < K) (hlen : rest.length = K)
    (hnd : ((e0 :: rest).map Event.id).Nodup) :
    (mkAppState cfg).events.cap = 1000 ∧
    (putAll (LruCache.new Nat Event K) (e0 :: rest)).entries.length = K ∧
    (∀ e ∈ rest,
      (putAll (LruCache.new Nat Event K) (e0 :: rest)).containsKeyB e.id =
        true) ∧
    (putAll (LruCache.new Nat Event K) (e0 :: rest)).containsKeyB e0.id =
      false := by
  rcases List.eq_nil_or_concat' rest with hr | ⟨mid, el, hr⟩
  · subst hr; simp at hlen; omega
  subst hr
  have hmidlen : mid.length + 1 = K := by simpa using hlen
  have h0 : e0.id ∉ (mid ++ [el]).map Event.id := (List.nodup_cons.mp hnd).1
  have hndfront : ((e0 :: mid).map Event.id).Nodup :=
    List.Nodup.sublist
      (List.Sublist.map Event.id (List.sublist_append_left (e0 :: mid) [el]))
      (by simpa using hnd)
  have helnotin : el.id ∉ (e0 :: mid).map Event.id := by
    have hnd2 : (((e0 :: mid).map Event.id) ++ [el.id]).Nodup := by
      have : ((((e0 :: mid) ++ [el]).map Event.id)).Nodup := by simpa using hnd
      simpa [List.map_append] using this
    intro hmem
    exact List.disjoint_of_nodup_append hnd2 hmem (by simp)
  obtain ⟨hcap, hentries⟩ :=
    putAll_fresh (e0 :: mid) (LruCache.new Nat Event K) hndfront
      (fun e _ => rfl) (by simp [LruCache.new]; omega)
  have hA_cap : (putAll (LruCache.new Nat Event K) (e0 :: mid)).cap = K := by
    simpa [LruCache.new] using hcap
  have hA_entries : (putAll (LruCache.new Nat Event K) (e0 :: mid)).entries =
      (mid.map (fun e => (e.id, e))).reverse ++ [(e0.id, e0)] := by
    rw [hentries]
    simp [List.reverse_cons, LruCache.new]
  have hsplit : putAll (LruCache.new Nat Event K) (e0 :: (mid ++ [el])) =
      LruCache.put (putAll (LruCache.new Nat Event K) (e0 :: mid)) el.id el := by
    simp only [putAll]
    rw [show (e0 :: (mid ++ [el])) = (e0 :: mid) ++ [el] by simp]
    rw [List.foldl_append]
    rfl
  have hfreshA : ∀ p ∈ (putAll (LruCache.new Nat Event K) (e0 :: mid)).entries,
      p.1 ≠ el.id := by
    rw [hA_entries]
    intro p hp hpe
    apply helnotin
    rcases List.mem_append.mp hp with hp1 | hp2
    · rcases List.mem_map.mp (List.mem_reverse.mp hp1) with ⟨e, he, hee⟩
      rw [← hee] at hpe
      rw [← hpe]
      exact List.mem_cons_of_mem _ (List.mem_map_of_mem Event.id he)
    · have hpeq : p = (e0.id, e0) := by simpa using hp2
      rw [hpeq] at hpe
      rw [← hpe]
      simp
  have hfilterA :
      (putAll (LruCache.new Nat Event K) (e0 :: mid)).entries.filter
        (fun p => !decide (p.1 = el.id)) =
      (putAll (LruCache.new Nat Event K) (e0 :: mid)).entries :=
    List.filter_eq_self.mpr (fun p hp => by simpa using hfreshA p hp)
  have hlenA : (putAll (LruCache.new Nat Event K) (e0 :: mid)).entries.length
      = K := by
    rw [hA_entries]; simp; omega
  have hltA : (putAll (LruCache.new Nat Event K) (e0 :: mid)).cap <
      ((el.id, el) ::
        (putAll (LruCache.new Nat Event K) (e0 :: mid)).entries).length := by
    rw [hA_cap]; simp [hlenA]
  have hput2 : LruCache.put (putAll (LruCache.new Nat Event K) (e0 :: mid))
      el.id el =
      (⟨K, (el.id, el) :: (mid.map (fun e => (e.id, e))).reverse⟩ :
        LruCache Nat Event) := by
    simp only [LruCache.put]
    rw [hfilterA, hA_cap, hA_entries]
    rw [if_pos (by simp; omega)]
    rw [show ((el.id, el) ::
        ((mid.map fun e => (e.id, e)).reverse ++ [(e0.id, e0)])) =
        (((el.id, el) :: (mid.map fun e => (e.id, e)).reverse) ++
          [(e0.id, e0)]) from rfl]
    rw [List.dropLast_concat]
  have hkeys : (⟨K, (el.id, el) :: (mid.map fun e => (e.id, e)).reverse⟩ :
        LruCache Nat Event).keys = el.id :: (mid.map Event.id).reverse := by
    simp only [LruCache.keys, List.map_cons, List.map_reverse, List.map_map]
    rfl
  refine ⟨rfl, ?_, ?_, ?_⟩
  · rw [hsplit, hput2]
    simp
    omega
  · intro e he
    rw [hsplit, hput2, lru_containsKeyB_iff, hkeys]
    rcases List.mem_append.mp he with hm | hl
    · exact List.mem_cons_of_mem _
        (List.mem_reverse.mpr (List.mem_map_of_mem Event.id hm))
    · have : e = el := by simpa using hl
      rw [this]
      simp
  · rw [hsplit, hput2]
    have hnot : ¬ ((⟨K,
        (el.id, el) :: (mid.map fun e => (e.id, e)).reverse⟩ :
          LruCache Nat Event).containsKeyB e0.id = true) := by
      rw [lru_containsKeyB_iff, hkeys]
      intro hmem
      rcases List.mem_cons.mp hmem with h1 | h2
      · exact h0 (h1 ▸ (by simp))
      · rw [List.mem_reverse] at h2
        exact h0 (by
          rw [List.map_append]
          exact List.mem_append_left _ h2)
    simpa using hnot

/-- Witness for the C6 theorem: three events with ids 0, 1, 2 put into an
empty log of capacity 2 leave exactly the last two, and the first-inserted
event (id 0) is gone; the server state's cache capacity is 1000. -/
theorem event_log_bounded_eviction_witness :
    (mkAppState cfg0).events.cap = 1000 ∧
    (putAll (LruCache.new Nat Event 2) [ev0, ev1, ev2]).entries.length = 2 ∧
    (∀ e ∈ [ev1, ev2],
      (putAll (LruCache.new Nat Event 2) [ev0, ev1, ev2]).containsKeyB e.id =
        true) ∧
    (putAll (LruCache.new Nat Event 2) [ev0, ev1, ev2]).containsKeyB ev0.id =
      false :=
  event_log_bounded_eviction cfg0 ev0 [ev1, ev2] 2 (by decide) rfl (by decide)
